import Mathlib

/-!
# Verification of the cw-scripts-tui interactive backup front-end

Shallow embedding of `cmd/cwbackup-tui/main.go`: the domain normalizer
(`normalizeDomains`), the log-append helper (`appendLogLine`), the
executable pre-check (`assertExecutable`), the stdin protocol of
`startProcessCmd`, and the Bubble Tea `Update` state machine of `model`.

Strings are modelled as `String` / `List Char`; the Go standard-library
helpers used by the source (`strings.ToLower`, `strings.NewReplacer`,
`strings.Fields`, `strings.TrimSpace`, `strings.TrimPrefix`,
`regexp.FindString` for the fixed pattern `([a-z0-9-]+\.)+[a-z]{2,}`)
are embedded below with their semantics on the character sequences the
program manipulates.  Case mapping is embedded for the ASCII range, the
alphabet all of the program's character classes live in.
-/

namespace CW

/-! ## Character classes -/

/-- `[a-z0-9-]`: a character allowed inside a hostname label by the
source's regular expression. -/
def isLabelChar (c : Char) : Bool :=
  (97 ≤ c.toNat && c.toNat ≤ 122) || (48 ≤ c.toNat && c.toNat ≤ 57) || c.toNat = 45

/-- `[a-z]`: a character allowed in the final label of the pattern. -/
def isLowerAlpha (c : Char) : Bool :=
  97 ≤ c.toNat && c.toNat ≤ 122

/-- `unicode.IsSpace`, the class `strings.Fields` and `strings.TrimSpace`
split/trim on. -/
def goIsSpace (c : Char) : Bool :=
  c.toNat = 9 || c.toNat = 10 || c.toNat = 11 || c.toNat = 12 || c.toNat = 13 ||
  c.toNat = 32 || c.toNat = 0x85 || c.toNat = 0xA0 || c.toNat = 0x1680 ||
  (0x2000 ≤ c.toNat && c.toNat ≤ 0x200A) ||
  c.toNat = 0x2028 || c.toNat = 0x2029 || c.toNat = 0x202F ||
  c.toNat = 0x205F || c.toNat = 0x3000

/-- `strings.ToLower` on one character (ASCII case mapping). -/
def goToLowerChar (c : Char) : Char :=
  if 65 ≤ c.toNat && c.toNat ≤ 90 then Char.ofNat (c.toNat + 32) else c

/-- `strings.ToLower` (line 373 of main.go). -/
def goToLower (l : List Char) : List Char := l.map goToLowerChar

/-! ## The replacer (line 374-376)

`strings.NewReplacer("\t", " ", ",", " ", ";", " ", "|", " ", "\r", " ",
"https://", "", "http://", "", "/", " ")`: scans left to right, at each
position applying the first pattern (in argument order) that matches,
otherwise copying the character. -/

def httpsPat : List Char := ['h', 't', 't', 'p', 's', ':', '/', '/']
def httpPat : List Char := ['h', 't', 't', 'p', ':', '/', '/']

def goReplaceF : Nat → List Char → List Char
  | 0, l => l
  | _, [] => []
  | fuel + 1, c :: r =>
    if c = '\t' ∨ c = ',' ∨ c = ';' ∨ c = '|' ∨ c = '\r' then
      ' ' :: goReplaceF fuel r
    else if httpsPat.isPrefixOf (c :: r) then
      goReplaceF fuel ((c :: r).drop 8)
    else if httpPat.isPrefixOf (c :: r) then
      goReplaceF fuel ((c :: r).drop 7)
    else if c = '/' then
      ' ' :: goReplaceF fuel r
    else
      c :: goReplaceF fuel r

def goReplace (l : List Char) : List Char := goReplaceF l.length l

/-! ## `strings.Fields` (line 381) -/

def fieldsAux : List Char → List Char → List (List Char)
  | [], acc => if acc.isEmpty then [] else [acc.reverse]
  | c :: r, acc =>
    if goIsSpace c then
      if acc.isEmpty then fieldsAux r [] else acc.reverse :: fieldsAux r []
    else
      fieldsAux r (c :: acc)

def goFields (l : List Char) : List (List Char) := fieldsAux l []

/-! ## The regular expression `([a-z0-9-]+\.)+[a-z]{2,}` (line 378, 382)

Go's `regexp` implements leftmost-first (Perl-style) matching.  For this
pattern the inner `[a-z0-9-]+` is forced to the maximal label run (the
following `\.` can never match a label character), so a match attempt at
a position is: take as many `label-run "."` groups as possible, then
backtrack the group count until the tail `[a-z]{2,}` (a greedy maximal
lowercase-alpha run of length at least two) succeeds.  `FindString`
returns the match at the leftmost position where one exists. -/

/-- One `[a-z0-9-]+\.` group at the head of `l`: the maximal label run
followed by a literal dot. -/
def matchLabelDot (l : List Char) : Option (List Char × List Char) :=
  let run := l.takeWhile isLabelChar
  let rest := l.dropWhile isLabelChar
  if run.isEmpty then none
  else
    match rest with
    | c :: r2 => if c = '.' then some (run ++ ['.'], r2) else none
    | [] => none

/-- All prefixes of `l` consisting of 1, 2, … maximal `label "."` groups,
paired with the corresponding remainder (fuelled; `fuel = l.length`
always suffices since each group consumes at least two characters). -/
def repChainF : Nat → List Char → List (List Char × List Char)
  | 0, _ => []
  | fuel + 1, l =>
    match matchLabelDot l with
    | none => []
    | some (g, rest) =>
      (g, rest) :: (repChainF fuel rest).map (fun pr => (g ++ pr.1, pr.2))

def repChain (l : List Char) : List (List Char × List Char) :=
  repChainF l.length l

/-- The greedy tail `[a-z]{2,}` candidate at a position. -/
def tailRun (l : List Char) : List Char := l.takeWhile isLowerAlpha

/-- Candidate match for a given group split `(pre, rest)`: succeeds when
the greedy alpha run at `rest` has length at least two. -/
def matchCand (pr : List Char × List Char) : Option (List Char) :=
  if 2 ≤ (tailRun pr.2).length then some (pr.1 ++ tailRun pr.2) else none

/-- The match of the pattern anchored at the start of `l`, if any:
greatest group count first, as a backtracking engine tries them. -/
def matchAt (l : List Char) : Option (List Char) :=
  (repChain l).reverse.findSome? matchCand

/-- `re.FindString tok` for the fixed pattern: the match at the leftmost
position admitting one, or `none` (Go: the empty string). -/
def findString : List Char → Option (List Char)
  | [] => none
  | c :: rest =>
    match matchAt (c :: rest) with
    | some m => some m
    | none => findString rest

/-! ## `strings.TrimPrefix(m, "www.")` (line 383) -/

def wwwPat : List Char := ['w', 'w', 'w', '.']

def trimWWW (l : List Char) : List Char :=
  if wwwPat.isPrefixOf l then l.drop 4 else l

/-! ## Deduplication with first-seen order (lines 379-388) -/

def dedupAux : List (List Char) → List (List Char) → List (List Char)
  | [], _ => []
  | x :: r, seen =>
    if x ∈ seen then dedupAux r seen else x :: dedupAux r (x :: seen)

/-- Per-token step of the loop body (lines 382-387): regex extraction
followed by `www.` stripping; tokens with no match are dropped. -/
def extractTok (tok : List Char) : Option (List Char) :=
  (findString tok).map trimWWW

/-- `normalizeDomains` (lines 372-391) on character lists. -/
def normalizeDomainsL (l : List Char) : List (List Char) :=
  dedupAux ((goFields (goReplace (goToLower l))).filterMap extractTok) []

/-- `normalizeDomains` (lines 372-391). -/
def normalizeDomains (s : String) : List String :=
  (normalizeDomainsL s.data).map (fun l => String.mk l)

/-! ## `strings.TrimSpace` -/

def trimSpaceL (l : List Char) : List Char :=
  ((l.dropWhile goIsSpace).reverse.dropWhile goIsSpace).reverse

def trimSpace (s : String) : String := String.mk (trimSpaceL s.data)

/-! ## The log buffer (`appendLogLine`, lines 313-323) -/

/-- `appendLogLine` on the `logBuf` string: empty lines are dropped, a
separating newline is written only when the buffer is nonempty. -/
def appendLogLine (buf s : String) : String :=
  if s = "" then buf
  else if buf = "" then s
  else buf ++ "\n" ++ s

/-- Split a character sequence at newline characters (the lines of the
rendered log). -/
def splitNl : List Char → List (List Char)
  | [] => [[]]
  | c :: r =>
    if c = '\n' then [] :: splitNl r
    else (c :: (splitNl r).headI) :: (splitNl r).tail

/-- The rendered log contains no empty line (vacuously true of the empty
buffer). -/
def LogLinesOk (buf : String) : Prop :=
  buf = "" ∨ ∀ l ∈ splitNl buf.data, l ≠ []

/-! ## The session state machine (lines 27-311)

`step`, `model` and `Update` from the source.  Display-only state
(lipgloss styles, spinner animation frame, viewport scroll offset) is
not part of the model; `viewport` keeps the content string set by
`SetContent`.  The `lines` and `done` channels are modelled by their
contents: a FIFO list of pending lines, and an `Option` holding the
single buffered completion value (`none` = empty channel).  The
text-input widgets are modelled by their string values; an unhandled
single-character key reaching a focused widget appends that character
(the library inserts the typed rune at the cursor, which sits at the
end), any other unhandled message leaves the value unchanged. -/

inductive Step where
  | stepEmail | stepAPI | stepDomains | stepConfirm | stepRunning | stepDone
deriving DecidableEq, Repr

export Step (stepEmail stepAPI stepDomains stepConfirm stepRunning stepDone)

/-- A Go `error` value as the program distinguishes them:
`context.Canceled`, or any other error with its message text
(`errors.Is(err, context.Canceled)` holds exactly for `canceled`). -/
inductive GoError where
  | canceled
  | other (msg : String)
deriving DecidableEq, Repr

/-- The messages `Update` can receive: key events (by their
`msg.String()` form), the poll tick, the runner's completion message
`doneMsg` (`none` = nil error), a `lineMsg`, and the spinner's own tick. -/
inductive Msg where
  | key (k : String)
  | tick
  | doneM (e : Option GoError)
  | lineM (s : String)
  | spinTick
deriving DecidableEq, Repr

/-- The command returned by `Update`: `nil`, `tea.Quit`, `nextTick()`,
`tea.Batch(m.startProcessCmd(), nextTick())`, or an opaque widget
command (cursor blink and the like). -/
inductive CmdE where
  | noneC | quit | tickC | startBatch | widgetC
deriving DecidableEq, Repr

/-- `os.Stat` result: what `assertExecutable` inspects. -/
structure FileInfo where
  isDir : Bool
  mode : Nat
deriving DecidableEq, Repr

/-- The file system as `assertExecutable` sees it: `stat` per path, and
whether a `chmod` on a path would succeed. -/
structure FS where
  stat : String → Option FileInfo
  chmodOk : String → Bool

/-- `os.Chmod(p, 0755)` ignoring failure (line 405). -/
def chmodAttempt (fs : FS) (p : String) : FS :=
  if fs.chmodOk p then
    { fs with stat := fun q => if q = p then (fs.stat p).map (fun fi => { fi with mode := 0o755 }) else fs.stat q }
  else fs

/-- `assertExecutable` (lines 393-408): the returned error and the file
system after the best-effort chmod.  The chmod's own success or failure
does not influence the returned error: its result is discarded
(`_ = os.Chmod(p, 0755)`) and the function returns nil. -/
def assertExecutable (fs : FS) (p : String) : Option String × FS :=
  if p = "" then (some "script path is empty", fs)
  else
    match fs.stat p with
    | none => (some ("script not found at " ++ p), fs)
    | some fi =>
      if fi.isDir then (some (p ++ " is a directory"), fs)
      else if fi.mode &&& 0o111 = 0 then (none, chmodAttempt fs p)
      else (none, fs)

/-- The `model` struct (lines 42-74), restricted to the fields the
events can observe or change. -/
structure Model where
  scriptPath : String
  email : String
  apiKey : String
  domArea : String
  normalized : List String
  stage : Step
  lines : List String
  done : Option (Option GoError)
  logBuf : String
  viewport : String
  cancelActive : Bool
deriving DecidableEq, Repr

/-- `initialModel` (lines 76-125); the environment pre-fills are
parameters. -/
def initialModel (scriptPath email0 apiKey0 dom0 : String) : Model :=
  { scriptPath := scriptPath
    email := email0
    apiKey := apiKey0
    domArea := dom0
    normalized := []
    stage := stepEmail
    lines := []
    done := none
    logBuf := ""
    viewport := ""
    cancelActive := false }

/-- A focused text widget consuming an unhandled message (library
boundary: a single-rune key inserts that rune at the end-of-text
cursor). -/
def typeKey (v : String) (msg : Msg) : String :=
  match msg with
  | Msg.key k => if k.length = 1 then v ++ k else v
  | _ => v

/-- `m.appendLogLine(s)` (lines 313-323): appends to `logBuf` and
mirrors the buffer into the viewport content. -/
def appendLogLineM (m : Model) (s : String) : Model :=
  if s = "" then m
  else
    let b := appendLogLine m.logBuf s
    { m with logBuf := b, viewport := b }

/-- The drain loop of the `tickMsg` branch (lines 274-281): pop and
append at most `n` pending lines. -/
def drainM : Nat → Model → Model
  | 0, m => m
  | n + 1, m =>
    match m.lines with
    | [] => m
    | l :: ls => drainM n (appendLogLineM { m with lines := ls } l)

/-- The final status line of the run (lines 284-288): the error text for
a real error, the success marker for nil or `context.Canceled`. -/
def statusLine : Option GoError → String
  | some (GoError.other s) => "Process error: " ++ s
  | _ => "Done."

/-- `Update` (lines 164-311). -/
def update (fs : FS) (m : Model) (msg : Msg) : Model × CmdE :=
  match m.stage with
  | stepEmail =>
    match msg with
    | Msg.key k =>
      if k = "q" ∨ k = "ctrl+c" then (m, CmdE.quit)
      else if k = "enter" then
        if trimSpace m.email = "" then (m, CmdE.noneC)
        else ({ m with stage := stepAPI }, CmdE.noneC)
      else ({ m with email := typeKey m.email msg }, CmdE.widgetC)
    | _ => ({ m with email := typeKey m.email msg }, CmdE.widgetC)
  | stepAPI =>
    match msg with
    | Msg.key k =>
      if k = "q" ∨ k = "ctrl+c" then (m, CmdE.quit)
      else if k = "esc" then ({ m with stage := stepEmail }, CmdE.noneC)
      else if k = "enter" then
        if trimSpace m.apiKey = "" then (m, CmdE.noneC)
        else ({ m with stage := stepDomains }, CmdE.noneC)
      else ({ m with apiKey := typeKey m.apiKey msg }, CmdE.widgetC)
    | _ => ({ m with apiKey := typeKey m.apiKey msg }, CmdE.widgetC)
  | stepDomains =>
    match msg with
    | Msg.key k =>
      if k = "q" ∨ k = "ctrl+c" then (m, CmdE.quit)
      else if k = "esc" then ({ m with stage := stepAPI }, CmdE.noneC)
      else if k = "ctrl+d" then
        ({ m with normalized := normalizeDomains m.domArea, stage := stepConfirm }, CmdE.noneC)
      else ({ m with domArea := typeKey m.domArea msg }, CmdE.widgetC)
    | _ => ({ m with domArea := typeKey m.domArea msg }, CmdE.widgetC)
  | stepConfirm =>
    match msg with
    | Msg.key k =>
      if k = "q" ∨ k = "ctrl+c" then (m, CmdE.quit)
      else if k = "b" then ({ m with stage := stepAPI }, CmdE.noneC)
      else if k = "n" then ({ m with stage := stepDomains }, CmdE.noneC)
      else if k = "y" then
        match (assertExecutable fs m.scriptPath).1 with
        | some err => ({ m with viewport := err, stage := stepDone }, CmdE.noneC)
        | none =>
          ({ m with stage := stepRunning, viewport := "", cancelActive := true },
           CmdE.startBatch)
      else (m, CmdE.noneC)
    | _ => (m, CmdE.noneC)
  | stepRunning =>
    match msg with
    | Msg.key k =>
      if k = "q" ∨ k = "ctrl+c" then (m, CmdE.quit)
      else if k = "pgdown" ∨ k = " " ∨ k = "j" ∨ k = "down" then (m, CmdE.noneC)
      else if k = "pgup" ∨ k = "k" ∨ k = "up" then (m, CmdE.noneC)
      else (m, CmdE.noneC)
    | Msg.tick =>
      let m1 := drainM 200 m
      match m1.done with
      | some e =>
        let m2 := appendLogLineM { m1 with done := none } (statusLine e)
        ({ m2 with stage := stepDone }, CmdE.noneC)
      | none => (m1, CmdE.tickC)
    | _ => (m, CmdE.widgetC)
  | stepDone =>
    match msg with
    | Msg.key k =>
      if k = "q" ∨ k = "ctrl+c" then (m, CmdE.quit) else (m, CmdE.noneC)
    | _ => (m, CmdE.noneC)

/-! ## The runner's stdin protocol and completion message
(`startProcessCmd`, lines 329-370) -/

/-- One operation on the subprocess's standard input. -/
inductive StdinOp where
  | write (s : String)
  | close
deriving DecidableEq, Repr

/-- Whether the raw domains text already ends in a newline
(`strings.HasSuffix(rawDomains, "\n")`, line 358). -/
def hasNlSuffix (s : String) : Bool := s.data.getLast? = some '\n'

/-- The third write: the raw domains text, with a newline appended only
when it does not already end in one (lines 358-361). -/
def thirdWrite (raw : String) : String :=
  if hasNlSuffix raw then raw else raw ++ "\n"

/-- The sequence of stdin operations performed after a successful
`cmd.Start()` (lines 356-362). -/
def stdinScript (email apiKey raw : String) : List StdinOp :=
  [StdinOp.write (trimSpace email ++ "\n"),
   StdinOp.write (trimSpace apiKey ++ "\n"),
   StdinOp.write (thirdWrite raw),
   StdinOp.close]

/-- The raw text ends in exactly one newline: its last character is a
newline and the character before it (if any) is not. -/
def endsExactlyOneNl (s : String) : Bool :=
  match s.data.reverse with
  | ['\n'] => true
  | '\n' :: c :: _ => c != '\n'
  | _ => false

/-- The single message the command returned by `startProcessCmd`
produces (lines 350-369): a `doneMsg` carrying the start error when
`cmd.Start()` fails, otherwise the result of `cmd.Wait()`.  It is
returned to the Bubble Tea loop as a message; it is not sent on the
model's `done` channel. -/
def runnerResult (startErr waitErr : Option GoError) : Msg :=
  match startErr with
  | some e => Msg.doneM (some e)
  | none => Msg.doneM waitErr

/-- Joining a normalized list back into one text, one domain per line
(the join of the idempotence property). -/
def joinNlL : List (List Char) → List Char
  | [] => []
  | [d] => d
  | d :: e :: ds => d ++ '\n' :: joinNlL (e :: ds)

def joinNl (ds : List String) : String :=
  String.mk (joinNlL (ds.map String.data))

/-! ## The §4.3 transition table -/

/-- The stage changes permitted by the specification's state-machine
table (quitting does not change the stage, so it does not appear). -/
def allowedTransition : Step → Step → Bool
  | stepEmail, stepAPI => true
  | stepAPI, stepEmail => true
  | stepAPI, stepDomains => true
  | stepDomains, stepAPI => true
  | stepDomains, stepConfirm => true
  | stepConfirm, stepAPI => true
  | stepConfirm, stepDomains => true
  | stepConfirm, stepRunning => true
  | stepConfirm, stepDone => true
  | stepRunning, stepDone => true
  | _, _ => false

/-! ## Shape of the strings produced by the normalizer

Used to reason about renormalizing the normalizer's own output. -/

/-- A nonempty sequence of `label "."` groups, each label a nonempty run
of `[a-z0-9-]` characters. -/
inductive GroupSeq : List Char → Prop where
  | single (run : List Char) (hne : run ≠ [])
      (hall : ∀ c ∈ run, isLabelChar c = true) : GroupSeq (run ++ ['.'])
  | cons (run : List Char) (hne : run ≠ [])
      (hall : ∀ c ∈ run, isLabelChar c = true)
      (rest : List Char) (hrest : GroupSeq rest) : GroupSeq (run ++ '.' :: rest)

/-- A well-formed normalizer output: groups followed by an alphabetic
tail of length at least two. -/
def OutOk (d : List Char) : Prop :=
  ∃ pre x, d = pre ++ x ∧ GroupSeq pre ∧
    (∀ c ∈ x, isLowerAlpha c = true) ∧ 2 ≤ x.length

/-! ## Concrete fixtures for the witnesses -/

/-- A file system on which every path is a plain executable file. -/
def fsOk : FS := ⟨fun _ => some ⟨false, 0o755⟩, fun _ => true⟩

/-- A file system on which every path is a plain file without the
executable bit, and no chmod can succeed. -/
def fsNoBit : FS := ⟨fun _ => some ⟨false, 0⟩, fun _ => false⟩

def mEmail : Model := initialModel "/s" "" "" ""
def mEmailFilled : Model := { mEmail with email := "user@example.com" }
def mApi : Model := { mEmail with stage := stepAPI }
def mApiFilled : Model := { mApi with apiKey := "k" }
def mDomains : Model := { mEmail with stage := stepDomains }
def mRun : Model := { mEmail with stage := stepRunning }
def mRunDone : Model := { mRun with done := some none, lines := ["hi"] }

/-! # Lemmas -/

theorem appendLogLineM_stage (m : Model) (s : String) :
    (appendLogLineM m s).stage = m.stage := by
  unfold appendLogLineM; split <;> rfl

theorem appendLogLineM_done (m : Model) (s : String) :
    (appendLogLineM m s).done = m.done := by
  unfold appendLogLineM; split <;> rfl

theorem appendLogLineM_logBuf (m : Model) (s : String) (h : s ≠ "") :
    (appendLogLineM m s).logBuf = appendLogLine m.logBuf s := by
  unfold appendLogLineM; split
  · simp_all [appendLogLine]
  · rfl

theorem drainM_stage (n : Nat) (m : Model) : (drainM n m).stage = m.stage := by
  induction n generalizing m with
  | zero => rfl
  | succ n ih =>
    unfold drainM
    match h : m.lines with
    | [] => rfl
    | l :: ls => rw [ih, appendLogLineM_stage]

theorem drainM_done (n : Nat) (m : Model) : (drainM n m).done = m.done := by
  induction n generalizing m with
  | zero => rfl
  | succ n ih =>
    unfold drainM
    match h : m.lines with
    | [] => rfl
    | l :: ls => rw [ih, appendLogLineM_done]

theorem statusLine_ne_empty (e : Option GoError) : statusLine e ≠ "" := by
  match e with
  | none => decide
  | some GoError.canceled => decide
  | some (GoError.other s) =>
    simp only [statusLine]
    intro h
    have := congrArg String.data h
    simp [String.data_append] at this

theorem splitNl_ne_nil (l : List Char) : splitNl l ≠ [] := by
  match l with
  | [] => simp [splitNl]
  | c :: r =>
    unfold splitNl
    split <;> simp

theorem splitNl_append_nl (x y : List Char) :
    splitNl (x ++ '\n' :: y) = splitNl x ++ splitNl y := by
  induction x with
  | nil => simp [splitNl]
  | cons c r ih =>
    by_cases hc : c = '\n'
    · subst hc; simp [splitNl, ih]
    · have hr := splitNl_ne_nil r
      match h : splitNl r with
      | [] => exact absurd h hr
      | p :: ps =>
        have step : splitNl ((c :: r) ++ '\n' :: y)
            = (c :: (splitNl (r ++ '\n' :: y)).headI) :: (splitNl (r ++ '\n' :: y)).tail := by
          simp [splitNl, hc]
        rw [step, ih, h]
        simp [splitNl, hc, h]

theorem splitNl_no_nl (l : List Char) (h : ∀ c ∈ l, c ≠ '\n') :
    splitNl l = [l] := by
  induction l with
  | nil => rfl
  | cons c r ih =>
    have hc : c ≠ '\n' := h c (by simp)
    have := ih (fun a ha => h a (by simp [ha]))
    simp [splitNl, hc, this]

theorem trimSpaceL_eq_nil_iff (l : List Char) :
    trimSpaceL l = [] ↔ ∀ c ∈ l, goIsSpace c = true := by
  unfold trimSpaceL
  constructor
  · intro h c hc
    rw [List.reverse_eq_nil_iff, List.dropWhile_eq_nil_iff] at h
    rcases List.mem_append.mp
      ((List.takeWhile_append_dropWhile (p := goIsSpace) (l := l)) ▸ hc) with h1 | h2
    · exact List.mem_takeWhile_imp h1
    · exact h _ (by simpa using h2)
  · intro h
    have h1 : l.dropWhile goIsSpace = [] := List.dropWhile_eq_nil_iff.mpr h
    simp [h1]

theorem trimSpace_eq_empty_iff (s : String) :
    trimSpace s = "" ↔ ∀ c ∈ s.data, goIsSpace c = true := by
  rw [← trimSpaceL_eq_nil_iff]
  constructor
  · intro h
    have := congrArg String.data h
    simpa [trimSpace] using this
  · intro h
    simp [trimSpace, h]

/-! ## Character-class facts -/

theorem alpha_label {c : Char} (h : isLowerAlpha c = true) : isLabelChar c = true := by
  simp only [isLowerAlpha, Bool.and_eq_true, decide_eq_true_eq] at h
  simp only [isLabelChar, Bool.or_eq_true, Bool.and_eq_true, decide_eq_true_eq]
  omega

theorem label_dot_char {c : Char} (h : isLabelChar c = true ∨ c = '.') :
    goIsSpace c = false ∧ goToLowerChar c = c := by
  rcases h with h | rfl
  · simp only [isLabelChar, Bool.or_eq_true, Bool.and_eq_true, decide_eq_true_eq] at h
    constructor
    · simp only [goIsSpace, Bool.or_eq_false_iff, Bool.and_eq_false_iff,
        decide_eq_false_iff_not, Bool.not_eq_true, decide_eq_true_eq]
      omega
    · unfold goToLowerChar
      rw [if_neg]
      simp only [Bool.and_eq_true, decide_eq_true_eq, not_and]
      omega
  · exact ⟨by decide, by decide⟩

theorem label_dot_ne {c b : Char} (hb : isLabelChar b = false) (hbd : b ≠ '.')
    (h : isLabelChar c = true ∨ c = '.') : c ≠ b := by
  intro heq
  subst heq
  rcases h with h | h
  · rw [h] at hb; cases hb
  · exact hbd h

theorem prefix_mem {p l : List Char} (h : p.isPrefixOf l = true) :
    ∀ a ∈ p, a ∈ l :=
  fun _ ha => (List.isPrefixOf_iff_prefix.mp h).subset ha

/-! ## Structure of `matchLabelDot`, `repChain` and `matchAt` -/

theorem mld_some {l g r : List Char} (h : matchLabelDot l = some (g, r)) :
    ∃ run, g = run ++ ['.'] ∧ run ≠ [] ∧ (∀ c ∈ run, isLabelChar c = true) ∧
      l = g ++ r := by
  simp only [matchLabelDot] at h
  split at h
  · cases h
  · next hne =>
    split at h
    · next c r2 heq =>
      split at h
      · next hdot =>
        subst hdot
        injection h with h2
        injection h2 with hg hr
        subst hr
        refine ⟨l.takeWhile isLabelChar, hg.symm, ?_, ?_, ?_⟩
        · simpa using hne
        · exact fun c hc => List.mem_takeWhile_imp hc
        · rw [← hg]
          have := List.takeWhile_append_dropWhile (p := isLabelChar) (l := l)
          rw [heq] at this
          simp only [List.append_assoc, List.cons_append, List.nil_append] at this ⊢
          exact this.symm
      · cases h
    · cases h

theorem mld_none_of_alpha {x : List Char} (h : ∀ c ∈ x, isLowerAlpha c = true) :
    matchLabelDot x = none := by
  have hd : x.dropWhile isLabelChar = [] :=
    List.dropWhile_eq_nil_iff.mpr fun c hc => alpha_label (h c hc)
  unfold matchLabelDot
  simp [hd]

theorem takeWhile_label_break (run t : List Char)
    (hall : ∀ c ∈ run, isLabelChar c = true) :
    (run ++ '.' :: t).takeWhile isLabelChar = run ∧
    (run ++ '.' :: t).dropWhile isLabelChar = '.' :: t := by
  induction run with
  | nil =>
    have hdot : isLabelChar '.' = false := by decide
    simp [List.takeWhile, List.dropWhile, hdot]
  | cons c r ih =>
    have hc : isLabelChar c = true := hall c (by simp)
    have := ih fun a ha => hall a (by simp [ha])
    simp [List.takeWhile, List.dropWhile, hc, this]

theorem mld_group (run t : List Char) (hne : run ≠ [])
    (hall : ∀ c ∈ run, isLabelChar c = true) :
    matchLabelDot (run ++ '.' :: t) = some (run ++ ['.'], t) := by
  obtain ⟨h1, h2⟩ := takeWhile_label_break run t hall
  unfold matchLabelDot
  simp [h1, h2, hne]

theorem repChainF_nil (fuel : Nat) : repChainF fuel [] = [] := by
  cases fuel with
  | zero => rfl
  | succ n => simp [repChainF, matchLabelDot, List.takeWhile]

theorem mld_some_len {l g r : List Char} (h : matchLabelDot l = some (g, r)) :
    r.length + 2 ≤ l.length := by
  obtain ⟨run, hg, hne, _, hl⟩ := mld_some h
  subst hg
  rw [hl]
  have : 1 ≤ run.length := by
    cases run with
    | nil => exact absurd rfl hne
    | cons a t => simp
  simp [List.length_append]
  omega

theorem repChainF_stable : ∀ f1 f2 (l : List Char), l.length ≤ f1 →
    l.length ≤ f2 → repChainF f1 l = repChainF f2 l := by
  intro f1
  induction f1 with
  | zero =>
    intro f2 l h1 _
    have : l = [] := by
      cases l with
      | nil => rfl
      | cons b t => simp at h1
    subst this
    rw [repChainF_nil, repChainF_nil]
  | succ f1 ih =>
    intro f2 l h1 h2
    cases f2 with
    | zero =>
      have : l = [] := by
        cases l with
        | nil => rfl
        | cons a t => simp at h2
      subst this
      rw [repChainF_nil]
      rfl
    | succ f2 =>
      show repChainF (f1 + 1) l = repChainF (f2 + 1) l
      cases l with
      | nil => rw [repChainF_nil, repChainF_nil]
      | cons a t =>
        simp only [repChainF]
        cases hm : matchLabelDot (a :: t) with
        | none => rfl
        | some gr =>
          obtain ⟨g, r⟩ := gr
          have hlen := mld_some_len hm
          have hr := ih f2 r (by omega) (by omega)
          simp [hr]

theorem repChain_cons {l g r : List Char} (h : matchLabelDot l = some (g, r)) :
    repChain l = (g, r) :: (repChain r).map (fun pr => (g ++ pr.1, pr.2)) := by
  have hlen := mld_some_len h
  unfold repChain
  cases hl : l.length with
  | zero => omega
  | succ k =>
    simp only [repChainF, h]
    rw [repChainF_stable k r.length r (by omega) (by omega)]

theorem repChain_none {l : List Char} (h : matchLabelDot l = none) :
    repChain l = [] := by
  unfold repChain
  cases l.length with
  | zero => rfl
  | succ k => simp [repChainF, h]

theorem tailRun_eq_self {x : List Char} (h : ∀ c ∈ x, isLowerAlpha c = true) :
    tailRun x = x :=
  List.takeWhile_eq_self_iff.mpr (by simpa using h)

theorem findSomeOptMap {α β γ : Type} (A : List α) (f : α → Option β) (h : β → γ) :
    (A.findSome? fun a => (f a).map h) = (A.findSome? f).map h := by
  induction A with
  | nil => rfl
  | cons a t ih =>
    simp only [List.findSome?_cons]
    cases f a <;> simp [ih]

/-- A well-formed `groups ++ alpha-tail` string is matched whole by the
anchored matcher: the backtracking search succeeds at the greatest group
count, consuming the entire string. -/
theorem groupSeq_matchAt {x : List Char} (hx : ∀ c ∈ x, isLowerAlpha c = true)
    (hlen : 2 ≤ x.length) :
    ∀ {pre : List Char}, GroupSeq pre → matchAt (pre ++ x) = some (pre ++ x) := by
  intro pre hg
  induction hg with
  | single run hne hall =>
    have heq : (run ++ ['.']) ++ x = run ++ '.' :: x := by simp
    rw [heq]
    have hchain : repChain (run ++ '.' :: x) = [(run ++ ['.'], x)] := by
      rw [repChain_cons (mld_group run x hne hall),
        repChain_none (mld_none_of_alpha hx)]
      rfl
    unfold matchAt
    rw [hchain]
    simp [matchCand, tailRun_eq_self hx, hlen]
  | cons run hne hall rest hrest ih =>
    have heq : (run ++ '.' :: rest) ++ x = run ++ '.' :: (rest ++ x) := by simp
    rw [heq]
    have hmld := mld_group run (rest ++ x) hne hall
    unfold matchAt
    rw [repChain_cons hmld, List.reverse_cons, List.findSome?_append,
      ← List.map_reverse, List.findSome?_map]
    have hcomp : (matchCand ∘ fun pr => (run ++ ['.'] ++ pr.1, pr.2)) =
        fun pr => (matchCand pr).map (fun t => run ++ ['.'] ++ t) := by
      funext pr
      simp only [Function.comp_apply, matchCand]
      split <;> simp
    rw [hcomp, findSomeOptMap]
    have ihm : (repChain (rest ++ x)).reverse.findSome? matchCand
        = some (rest ++ x) := ih
    rw [ihm]
    simp

theorem chainF_mem : ∀ (fuel : Nat) (l pre rest : List Char),
    (pre, rest) ∈ repChainF fuel l → GroupSeq pre ∧ l = pre ++ rest := by
  intro fuel
  induction fuel with
  | zero => intro l pre rest h; simp [repChainF] at h
  | succ fuel ih =>
    intro l pre rest h
    simp only [repChainF] at h
    rcases hm : matchLabelDot l with _ | ⟨g, r⟩ <;> rw [hm] at h
    · simp at h
    · obtain ⟨run, hgr, hne, hall, hl⟩ := mld_some hm
      simp only [List.mem_cons, List.mem_map] at h
      rcases h with h | ⟨pr, hpr, heq⟩
      · have hpre : pre = g := congrArg Prod.fst h
        have hrest : rest = r := congrArg Prod.snd h
        subst hpre hrest
        exact ⟨hgr ▸ GroupSeq.single run hne hall, hl⟩
      · obtain ⟨pre1, rest1⟩ := pr
        obtain ⟨h1, h2⟩ := ih r pre1 rest1 hpr
        have hpre : pre = g ++ pre1 := (congrArg Prod.fst heq).symm
        have hrest : rest = rest1 := (congrArg Prod.snd heq).symm
        subst hpre hrest
        constructor
        · subst hgr
          have : run ++ ['.'] ++ pre1 = run ++ '.' :: pre1 := by simp
          rw [this]
          exact GroupSeq.cons run hne hall pre1 h1
        · rw [hl, h2]
          simp

theorem matchAt_out {l m : List Char} (h : matchAt l = some m) : OutOk m := by
  obtain ⟨pr, hmem, hcand⟩ := List.exists_of_findSome?_eq_some h
  rw [List.mem_reverse] at hmem
  obtain ⟨pre, rest⟩ := pr
  obtain ⟨hgs, _⟩ := chainF_mem l.length l pre rest hmem
  unfold matchCand at hcand
  split at hcand
  · next hlen =>
    injection hcand with hm
    exact ⟨pre, tailRun rest, hm.symm, hgs,
      fun c hc => List.mem_takeWhile_imp hc, hlen⟩
  · cases hcand

theorem findString_out : ∀ {tok m : List Char}, findString tok = some m → OutOk m := by
  intro tok
  induction tok with
  | nil => intro m h; simp [findString] at h
  | cons c r ih =>
    intro m h
    simp only [findString] at h
    rcases hm : matchAt (c :: r) with _ | m2 <;> rw [hm] at h
    · exact ih h
    · injection h with h
      exact h ▸ matchAt_out hm

theorem www_run_eq {run t d : List Char} (hall : ∀ c ∈ run, isLabelChar c = true)
    (heq : run ++ '.' :: t = 'w' :: 'w' :: 'w' :: '.' :: d) :
    run = ['w', 'w', 'w'] ∧ t = d := by
  have hdot : isLabelChar '.' = false := by decide
  rcases run with _ | ⟨a, _ | ⟨b, _ | ⟨c, _ | ⟨e, rest⟩⟩⟩⟩ <;> simp_all

theorem groupSeq_chars {pre : List Char} (h : GroupSeq pre) :
    ∀ c ∈ pre, isLabelChar c = true ∨ c = '.' := by
  induction h with
  | single run hne hall =>
    intro c hc
    rcases List.mem_append.mp hc with h1 | h1
    · exact Or.inl (hall c h1)
    · exact Or.inr (by simpa using h1)
  | cons run hne hall rest hrest ih =>
    intro c hc
    rcases List.mem_append.mp hc with h1 | h1
    · exact Or.inl (hall c h1)
    · rcases List.mem_cons.mp h1 with h2 | h2
      · exact Or.inr h2
      · exact ih c h2

theorem outOk_chars {d : List Char} (h : OutOk d) :
    d ≠ [] ∧ ∀ c ∈ d, isLabelChar c = true ∨ c = '.' := by
  obtain ⟨pre, x, rfl, hgs, hx, hlen⟩ := h
  constructor
  · intro hnil
    have hx2 : x = [] := (List.append_eq_nil.mp hnil).2
    rw [hx2] at hlen
    simp at hlen
  · intro c hc
    rcases List.mem_append.mp hc with h1 | h1
    · exact groupSeq_chars hgs c h1
    · exact Or.inl (alpha_label (hx c h1))

/-- Stripping one `www.` prefix from a full match leaves a well-formed
output provided a dot remains. -/
theorem outOk_trimWWW {m : List Char} (ho : OutOk m) (hdot : '.' ∈ trimWWW m) :
    OutOk (trimWWW m) := by
  obtain ⟨pre, x, hm, hgs, hx, hlen⟩ := ho
  unfold trimWWW at hdot ⊢
  by_cases hp : wwwPat.isPrefixOf m
  · rw [if_pos hp] at hdot ⊢
    obtain ⟨d, hd⟩ := List.isPrefixOf_iff_prefix.mp hp
    have hdrop : m.drop 4 = d := by
      rw [← hd]
      exact List.drop_left' (by decide)
    rw [hdrop] at hdot ⊢
    cases hgs with
    | single run hne hall =>
      have heq : run ++ '.' :: x = 'w' :: 'w' :: 'w' :: '.' :: d := by
        have : (run ++ ['.']) ++ x = run ++ '.' :: x := by simp
        rw [← this, ← hm, ← hd]
        rfl
      obtain ⟨_, hteq⟩ := www_run_eq hall heq
      exact absurd (hx '.' (hteq ▸ hdot)) (by decide)
    | cons run hne hall rest hrest =>
      have heq : run ++ '.' :: (rest ++ x) = 'w' :: 'w' :: 'w' :: '.' :: d := by
        have : (run ++ '.' :: rest) ++ x = run ++ '.' :: (rest ++ x) := by simp
        rw [← this, ← hm, ← hd]
        rfl
      obtain ⟨_, hteq⟩ := www_run_eq hall heq
      exact ⟨rest, x, hteq.symm, hrest, hx, hlen⟩
  · rw [if_neg hp] at hdot ⊢
    exact ⟨pre, x, hm, hgs, hx, hlen⟩

/-! ## Transparency of the pipeline on joined normalizer output -/

theorem mem_joinNlL {c : Char} : ∀ {ds : List (List Char)},
    c ∈ joinNlL ds → (∃ d ∈ ds, c ∈ d) ∨ c = '\n' := by
  intro ds
  induction ds with
  | nil => intro h; simp [joinNlL] at h
  | cons d tl ih =>
    intro h
    cases tl with
    | nil =>
      exact Or.inl ⟨d, by simp, by simpa [joinNlL] using h⟩
    | cons e tl2 =>
      simp only [joinNlL, List.mem_append, List.mem_cons] at h
      rcases h with h | h | h
      · exact Or.inl ⟨d, by simp, h⟩
      · exact Or.inr h
      · rcases ih h with ⟨d2, hd2, hc⟩ | h2
        · exact Or.inl ⟨d2, by simp [hd2], hc⟩
        · exact Or.inr h2

theorem goToLower_id {l : List Char} (h : ∀ c ∈ l, goToLowerChar c = c) :
    goToLower l = l := by
  unfold goToLower
  induction l with
  | nil => rfl
  | cons c r ih =>
    simp only [List.map_cons, h c (by simp)]
    rw [ih fun a ha => h a (by simp [ha])]

theorem goReplaceF_id : ∀ (fuel : Nat) (l : List Char),
    (∀ c ∈ l, isLabelChar c = true ∨ c = '.' ∨ c = '\n') →
    goReplaceF fuel l = l := by
  intro fuel
  induction fuel with
  | zero => intro l _; cases l <;> rfl
  | succ fuel ih =>
    intro l h
    cases l with
    | nil => rfl
    | cons c r =>
      have hc := h c (by simp)
      have hbad : ∀ b : Char, isLabelChar b = false → b ≠ '.' → b ≠ '\n' → c ≠ b := by
        intro b hb1 hb2 hb3 heq
        subst heq
        rcases hc with hc | hc | hc
        · rw [hc] at hb1; cases hb1
        · exact hb2 hc
        · exact hb3 hc
      have hnoslash : '/' ∉ c :: r := by
        intro hmem
        have := h '/' hmem
        rcases this with h1 | h1 | h1
        · cases h1
        · cases h1
        · cases h1
      have hps : httpsPat.isPrefixOf (c :: r) = false := by
        cases hp : httpsPat.isPrefixOf (c :: r)
        · rfl
        · exact absurd (prefix_mem hp '/' (by decide)) hnoslash
      have hp1 : httpPat.isPrefixOf (c :: r) = false := by
        cases hp : httpPat.isPrefixOf (c :: r)
        · rfl
        · exact absurd (prefix_mem hp '/' (by decide)) hnoslash
      have hcond : ¬(c = '\t' ∨ c = ',' ∨ c = ';' ∨ c = '|' ∨ c = '\r') := by
        rintro (hh | hh | hh | hh | hh) <;>
          exact hbad _ (by decide) (by decide) (by decide) hh
      simp only [goReplaceF, if_neg hcond, hps, hp1, Bool.false_eq_true, if_false,
        if_neg (hbad '/' (by decide) (by decide) (by decide))]
      rw [ih r fun a ha => h a (by simp [ha])]

theorem goReplace_id {l : List Char}
    (h : ∀ c ∈ l, isLabelChar c = true ∨ c = '.' ∨ c = '\n') :
    goReplace l = l :=
  goReplaceF_id l.length l h

theorem fieldsAux_skip {d : List Char} (hd : ∀ c ∈ d, goIsSpace c = false) :
    ∀ (rest acc : List Char),
      fieldsAux (d ++ rest) acc = fieldsAux rest (d.reverse ++ acc) := by
  induction d with
  | nil => intro rest acc; simp
  | cons c r ih =>
    intro rest acc
    have hc : goIsSpace c = false := hd c (by simp)
    simp only [List.cons_append, fieldsAux, hc, Bool.false_eq_true, if_false,
      List.append_eq]
    rw [ih (fun a ha => hd a (by simp [ha])) rest (c :: acc)]
    simp

theorem goFields_join : ∀ (ds : List (List Char)),
    (∀ d ∈ ds, d ≠ [] ∧ ∀ c ∈ d, goIsSpace c = false) →
    goFields (joinNlL ds) = ds := by
  intro ds
  induction ds with
  | nil => intro _; rfl
  | cons d tl ih =>
    intro h
    obtain ⟨hne, hnosp⟩ := h d (by simp)
    cases tl with
    | nil =>
      show fieldsAux (joinNlL [d]) [] = [d]
      have : joinNlL [d] = d ++ [] := by simp [joinNlL]
      rw [this, fieldsAux_skip hnosp [] []]
      have hrev : d.reverse ≠ [] := by simpa using hne
      simp [fieldsAux, hrev]
    | cons e tl2 =>
      show fieldsAux (d ++ '\n' :: joinNlL (e :: tl2)) [] = d :: e :: tl2
      rw [fieldsAux_skip hnosp ('\n' :: joinNlL (e :: tl2)) []]
      have hrev : d.reverse.isEmpty = false := by
        simp [List.isEmpty_eq_false]
        simpa using hne
      have hnlsp : goIsSpace '\n' = true := by decide
      simp only [fieldsAux, hnlsp, if_true, List.append_nil, hrev,
        Bool.false_eq_true, if_false, List.reverse_reverse]
      congr 1
      exact ih fun x hx => h x (by simp [hx])

/-! ## Deduplication lemmas -/

theorem mem_dedupAux {x : List Char} : ∀ {l seen : List (List Char)},
    x ∈ dedupAux l seen → x ∈ l := by
  intro l
  induction l with
  | nil => intro seen h; simp [dedupAux] at h
  | cons a r ih =>
    intro seen h
    unfold dedupAux at h
    split at h
    · exact List.mem_cons_of_mem a (ih h)
    · rcases List.mem_cons.mp h with h1 | h1
      · simp [h1]
      · exact List.mem_cons_of_mem a (ih h1)

theorem dedupAux_not_seen {x : List Char} : ∀ {l seen : List (List Char)},
    x ∈ dedupAux l seen → x ∉ seen := by
  intro l
  induction l with
  | nil => intro seen h; simp [dedupAux] at h
  | cons a r ih =>
    intro seen h
    unfold dedupAux at h
    split at h
    · exact ih h
    · next hns =>
      rcases List.mem_cons.mp h with h1 | h1
      · subst h1; exact hns
      · intro hx
        exact ih h1 (List.mem_cons_of_mem a hx)

theorem dedupAux_nodup : ∀ (l seen : List (List Char)),
    (dedupAux l seen).Nodup := by
  intro l
  induction l with
  | nil => intro seen; simp [dedupAux]
  | cons a r ih =>
    intro seen
    unfold dedupAux
    split
    · exact ih seen
    · refine List.Nodup.cons ?_ (ih (a :: seen))
      intro hmem
      exact dedupAux_not_seen hmem (by simp)

theorem dedupAux_eq_self : ∀ (l seen : List (List Char)), l.Nodup →
    (∀ x ∈ l, x ∉ seen) → dedupAux l seen = l := by
  intro l
  induction l with
  | nil => intro seen _ _; rfl
  | cons a r ih =>
    intro seen hnd hns
    unfold dedupAux
    rw [if_neg (hns a (by simp))]
    congr 1
    refine ih (a :: seen) (List.Nodup.of_cons hnd) ?_
    intro x hx
    simp only [List.mem_cons, not_or]
    exact ⟨fun he => (List.nodup_cons.mp hnd).1 (he ▸ hx), hns x (by simp [hx])⟩

/-! ## The per-token round trip and the main idempotence argument -/

theorem extractTok_self {d : List Char} (ho : OutOk d) (hw : trimWWW d = d) :
    extractTok d = some d := by
  obtain ⟨pre, x, hd, hgs, hx, hlen⟩ := ho
  have hm : matchAt d = some d := hd ▸ groupSeq_matchAt hx hlen hgs
  have hne : d ≠ [] := (outOk_chars ⟨pre, x, hd, hgs, hx, hlen⟩).1
  have hfs : findString d = some d := by
    cases hd2 : d with
    | nil => exact absurd hd2 hne
    | cons c r =>
      rw [hd2] at hm
      simp [findString, hm]
  simp [extractTok, hfs, hw]

theorem filterMap_extract_self : ∀ (ds : List (List Char)),
    (∀ d ∈ ds, extractTok d = some d) → ds.filterMap extractTok = ds := by
  intro ds
  induction ds with
  | nil => intro _; rfl
  | cons d tl ih =>
    intro h
    rw [List.filterMap_cons, h d (by simp), ih fun x hx => h x (by simp [hx])]

/-- Renormalizing the normalizer's output joined by newlines gives the
same list, provided every output entry still contains a dot and does not
itself start with `www.` (both can fail: a match `www.<label>` strips to
a dotless string, a match `www.www.…` strips to a string still carrying
the prefix). -/
theorem normalizeDomainsL_idem (l : List Char)
    (h : ∀ d ∈ normalizeDomainsL l, '.' ∈ d ∧ trimWWW d = d) :
    normalizeDomainsL (joinNlL (normalizeDomainsL l)) = normalizeDomainsL l := by
  have hout : ∀ d ∈ normalizeDomainsL l, OutOk d := by
    intro d hd
    have hd2 := mem_dedupAux hd
    obtain ⟨tok, _, hext⟩ := List.mem_filterMap.mp hd2
    obtain ⟨m, hfs, hm⟩ := Option.map_eq_some.mp hext
    have hdot : '.' ∈ trimWWW m := hm ▸ (h d hd).1
    exact hm ▸ outOk_trimWWW (findString_out hfs) hdot
  have hchars : ∀ d ∈ normalizeDomainsL l,
      d ≠ [] ∧ ∀ c ∈ d, isLabelChar c = true ∨ c = '.' :=
    fun d hd => outOk_chars (hout d hd)
  set ds := normalizeDomainsL l with hds
  have hlower : goToLower (joinNlL ds) = joinNlL ds := by
    refine goToLower_id fun c hc => ?_
    rcases mem_joinNlL hc with ⟨d, hd, hcd⟩ | rfl
    · exact (label_dot_char ((hchars d hd).2 c hcd)).2
    · decide
  have hrepl : goReplace (joinNlL ds) = joinNlL ds := by
    refine goReplace_id fun c hc => ?_
    rcases mem_joinNlL hc with ⟨d, hd, hcd⟩ | rfl
    · rcases (hchars d hd).2 c hcd with h1 | h1
      · exact Or.inl h1
      · exact Or.inr (Or.inl h1)
    · exact Or.inr (Or.inr rfl)
  have hfields : goFields (joinNlL ds) = ds := by
    refine goFields_join ds fun d hd => ⟨(hchars d hd).1, fun c hc => ?_⟩
    exact (label_dot_char ((hchars d hd).2 c hc)).1
  have hfm : ds.filterMap extractTok = ds := by
    refine filterMap_extract_self ds fun d hd => ?_
    exact extractTok_self (hout d hd) (h d hd).2
  have hnodup : ds.Nodup := dedupAux_nodup _ []
  show normalizeDomainsL (joinNlL ds) = ds
  unfold normalizeDomainsL
  rw [hlower, hrepl, hfields, hfm]
  exact dedupAux_eq_self ds [] hnodup (by simp)

theorem mapDataMk : ∀ (L : List (List Char)),
    (L.map (fun l => String.mk l)).map String.data = L := by
  intro L
  induction L with
  | nil => rfl
  | cons d tl ih => simp_all

/-! # Claims -/

/-- C8: the normalizer applied to `"B.com, a.com www.a.com"` yields
exactly `["b.com", "a.com"]`: lowercased, `www.` stripped, first-seen
order, duplicate removed. -/
theorem normalizeDomainsExample :
    normalizeDomains "B.com, a.com www.a.com" = ["b.com", "a.com"] := by
  decide

/-- C4 counterexample: the normalizer is not idempotent.
`normalizeDomains "www.ab" = ["ab"]`, but renormalizing the joined
output `"ab"` gives `[]` — the regex requires at least one dot, and
stripping `www.` from the two-label match `www.ab` left none. -/
theorem normalizeNotIdempotent :
    normalizeDomains (joinNl (normalizeDomains "www.ab")) ≠
      normalizeDomains "www.ab" := by
  decide

/-- C4 (amended): the normalizer is idempotent on every input whose
outputs each still contain a dot and do not themselves start with
`www.` (stripping the `www.` prefix can violate either: a match
`www.<label>` becomes dotless, a match `www.www.…` keeps a `www.`
prefix; renormalizing then drops or re-strips that entry). -/
theorem normalizeDomainsIdem (s : String)
    (h : ∀ d ∈ normalizeDomains s, '.' ∈ d.data ∧ trimWWW d.data = d.data) :
    normalizeDomains (joinNl (normalizeDomains s)) = normalizeDomains s := by
  have hchar : ∀ d ∈ normalizeDomainsL s.data, '.' ∈ d ∧ trimWWW d = d := by
    intro d hd
    have : String.mk d ∈ normalizeDomains s := by
      unfold normalizeDomains
      exact List.mem_map.mpr ⟨d, hd, rfl⟩
    exact h (String.mk d) this
  have hmain := normalizeDomainsL_idem s.data hchar
  unfold normalizeDomains joinNl
  rw [mapDataMk]
  show (normalizeDomainsL (joinNlL (normalizeDomainsL s.data))).map _ = _
  rw [hmain]

theorem normalizeDomainsIdemWitness :
    (∀ d ∈ normalizeDomains "b.com x.org", '.' ∈ d.data ∧ trimWWW d.data = d.data) ∧
    normalizeDomains (joinNl (normalizeDomains "b.com x.org")) =
      normalizeDomains "b.com x.org" :=
  ⟨by decide, normalizeDomainsIdem "b.com x.org" (by decide)⟩

/-- C3 counterexample: the third stdin write does not always end in
exactly one newline — raw domains text already ending in two newlines is
passed through unchanged, so the written value ends in two. -/
theorem thirdWriteNotExactlyOneNl :
    thirdWrite "a\n\n" = "a\n\n" ∧
    endsExactlyOneNl (thirdWrite "a\n\n") = false := by
  decide

/-- C3 (amended): a run writes exactly the trimmed email plus newline,
the trimmed API key plus newline, and the raw domains text with a
newline appended only when it does not already end in one — so the third
write always ends in at least one newline and equals the raw text
whenever that text already ends in a newline; the stream is then
closed. -/
theorem stdinWritesSpec (email apiKey raw : String) :
    stdinScript email apiKey raw =
      [StdinOp.write (trimSpace email ++ "\n"),
       StdinOp.write (trimSpace apiKey ++ "\n"),
       StdinOp.write (thirdWrite raw),
       StdinOp.close] ∧
    (thirdWrite raw).data.getLast? = some '\n' ∧
    (hasNlSuffix raw = true → thirdWrite raw = raw) ∧
    (hasNlSuffix raw = false → thirdWrite raw = raw ++ "\n") := by
  refine ⟨rfl, ?_, ?_, ?_⟩
  · unfold thirdWrite
    split
    · next h => simpa [hasNlSuffix] using h
    · simp [String.data_append]
  · intro h; simp [thirdWrite, h]
  · intro h; simp [thirdWrite, h]

theorem stdinWritesSpecWitness :
    stdinScript " e " "k" "a\n" =
      [StdinOp.write (trimSpace " e " ++ "\n"),
       StdinOp.write (trimSpace "k" ++ "\n"),
       StdinOp.write (thirdWrite "a\n"),
       StdinOp.close] ∧
    (thirdWrite "a\n").data.getLast? = some '\n' ∧
    (hasNlSuffix "a\n" = true → thirdWrite "a\n" = "a\n") ∧
    (hasNlSuffix "a\n" = false → thirdWrite "a\n" = "a\n" ++ "\n") :=
  stdinWritesSpec " e " "k" "a\n"

/-- C5 counterexample: on a file that exists, is not a directory, lacks
the executable bit, and on which chmod fails, the claim demands an
error, but `assertExecutable` returns none — the chmod result is
discarded. -/
theorem assertExecutableChmodIgnored :
    (assertExecutable fsNoBit "s").1 = none ∧
    fsNoBit.stat "s" = some ⟨false, 0⟩ ∧
    (0 : Nat) &&& 0o111 = 0 ∧
    fsNoBit.chmodOk "s" = false := by
  decide

/-- C5 (amended): the pre-run validation returns an error exactly when
the path is empty, the file does not exist, or the path is a directory;
when the executable bit is absent a chmod is attempted but its outcome
is ignored, so validation succeeds whenever a plain file exists at the
path. -/
theorem assertExecutableSpec (fs : FS) (p : String) :
    (assertExecutable fs p).1 = none ↔
      p ≠ "" ∧ ∃ fi, fs.stat p = some fi ∧ fi.isDir = false := by
  unfold assertExecutable
  by_cases hp : p = ""
  · simp [hp]
  · simp only [if_neg hp]
    match h : fs.stat p with
    | none => simp [h]
    | some fi =>
      by_cases hd : fi.isDir
      · simp [h, hd]
      · by_cases hm : fi.mode &&& 0o111 = 0 <;>
          simp [h, hd, hm, hp]

/-- C10: appending to the log drops empty strings, separates a nonempty
line from previous content by exactly one newline, and hence preserves
the invariant that the rendered log contains no empty line. -/
theorem appendLogLineSpec (buf s : String) (hnl : ∀ c ∈ s.data, c ≠ '\n') :
    appendLogLine buf "" = buf ∧
    (s ≠ "" → appendLogLine buf s = if buf = "" then s else buf ++ "\n" ++ s) ∧
    (LogLinesOk buf → LogLinesOk (appendLogLine buf s)) := by
  refine ⟨by simp [appendLogLine], ?_, ?_⟩
  · intro hs
    simp [appendLogLine, hs]
  · intro hok
    by_cases hs : s = ""
    · simpa [appendLogLine, hs] using hok
    · have hsd : s.data ≠ [] := fun h => hs (by
        cases s with
        | mk d => simp_all)
      by_cases hb : buf = ""
      · right
        subst hb
        have hbuf : appendLogLine "" s = s := by simp [appendLogLine, hs]
        rw [hbuf, splitNl_no_nl s.data hnl]
        simpa using hsd
      · rcases hok with hok | hok
        · exact absurd hok hb
        · right
          simp only [appendLogLine, if_neg hs, if_neg hb]
          have hdata : (buf ++ "\n" ++ s).data = buf.data ++ '\n' :: s.data := by
            simp [String.data_append]
          rw [hdata, splitNl_append_nl, splitNl_no_nl s.data hnl]
          intro l hl
          rcases List.mem_append.mp hl with h1 | h2
          · exact hok l h1
          · have hls : l = s.data := by simpa using h2
            rw [hls]; exact hsd

theorem appendLogLineM_eq (m : Model) (s : String) (h : s ≠ "") :
    appendLogLineM m s =
      { m with logBuf := appendLogLine m.logBuf s,
               viewport := appendLogLine m.logBuf s } := by
  unfold appendLogLineM
  rw [if_neg h]

/-- C9: in the Email, API and Domains stages a `"q"` or `"ctrl+c"` key
quits before the focused widget can consume it, leaving every field (the
whole model) unchanged — so a lone `q` keystroke can never be typed into
a field. -/
theorem quitInterceptsWidget (fs : FS) (m : Model)
    (h : m.stage = stepEmail ∨ m.stage = stepAPI ∨ m.stage = stepDomains) :
    update fs m (Msg.key "q") = (m, CmdE.quit) ∧
    update fs m (Msg.key "ctrl+c") = (m, CmdE.quit) := by
  rcases h with h | h | h <;> exact ⟨by simp [update, h], by simp [update, h]⟩

theorem quitInterceptsWidgetWitness :
    (mDomains.stage = stepEmail ∨ mDomains.stage = stepAPI ∨
      mDomains.stage = stepDomains) ∧
    update fsOk mDomains (Msg.key "q") = (mDomains, CmdE.quit) ∧
    update fsOk mDomains (Msg.key "ctrl+c") = (mDomains, CmdE.quit) :=
  ⟨Or.inr (Or.inr rfl), quitInterceptsWidget fsOk mDomains (Or.inr (Or.inr rfl))⟩

/-- C7: in the Email and API stages, Enter on a value that trims to
empty (i.e. is empty or all whitespace — the first conjunct ties the
trim test to the whitespace class) returns the model unchanged with no
command; Enter on a non-blank value advances to the API and Domains
stages respectively. -/
theorem enterEmptyValidation (fs : FS) (m : Model) :
    (∀ v : String, trimSpace v = "" ↔ ∀ c ∈ v.data, goIsSpace c = true) ∧
    (m.stage = stepEmail →
      (trimSpace m.email = "" → update fs m (Msg.key "enter") = (m, CmdE.noneC)) ∧
      (trimSpace m.email ≠ "" →
        update fs m (Msg.key "enter") = ({ m with stage := stepAPI }, CmdE.noneC))) ∧
    (m.stage = stepAPI →
      (trimSpace m.apiKey = "" → update fs m (Msg.key "enter") = (m, CmdE.noneC)) ∧
      (trimSpace m.apiKey ≠ "" →
        update fs m (Msg.key "enter") = ({ m with stage := stepDomains }, CmdE.noneC))) := by
  refine ⟨trimSpace_eq_empty_iff,
    fun hs => ⟨fun he => ?_, fun he => ?_⟩,
    fun hs => ⟨fun he => ?_, fun he => ?_⟩⟩ <;>
  simp [update, hs, he]

theorem enterEmptyValidationWitness :
    update fsOk mEmail (Msg.key "enter") = (mEmail, CmdE.noneC) ∧
    update fsOk mEmailFilled (Msg.key "enter")
      = ({ mEmailFilled with stage := stepAPI }, CmdE.noneC) ∧
    update fsOk mApi (Msg.key "enter") = (mApi, CmdE.noneC) ∧
    update fsOk mApiFilled (Msg.key "enter")
      = ({ mApiFilled with stage := stepDomains }, CmdE.noneC) :=
  ⟨((enterEmptyValidation fsOk mEmail).2.1 rfl).1 (by decide),
   ((enterEmptyValidation fsOk mEmailFilled).2.1 rfl).2 (by decide),
   ((enterEmptyValidation fsOk mApi).2.2 rfl).1 (by decide),
   ((enterEmptyValidation fsOk mApiFilled).2.2 rfl).2 (by decide)⟩

/-- C1 (bug): the completion message the runner produces is a `doneMsg`
handed to `Update` as a Bubble Tea message, but no `Update` branch
consumes it and nothing in the program ever sends on the model's
buffered `done` channel: starting from an empty completion slot in the
Running stage, the runner's message leaves the slot empty (and the stage
Running), and no message whatsoever fills the slot — the poller can
never observe completion, so the claimed "exactly one completion signal
on the `done` channel" is not met (zero signals ever appear there). -/
theorem doneChannelNeverFilled (fs : FS) (m : Model) (se we : Option GoError)
    (hs : m.stage = stepRunning) (hd : m.done = none) :
    (∃ e, runnerResult se we = Msg.doneM e) ∧
    (update fs m (runnerResult se we)).1.done = none ∧
    (update fs m (runnerResult se we)).1.stage = stepRunning ∧
    (∀ msg, (update fs m msg).1.done = none) := by
  have hall : ∀ msg, (update fs m msg).1.done = none := by
    intro msg
    cases msg with
    | key k =>
      simp only [update, hs]
      split_ifs <;> simp [hd]
    | tick =>
      simp only [update, hs]
      rw [drainM_done, hd]
      simp [drainM_done, hd]
    | doneM e => simp [update, hs, hd]
    | lineM s => simp [update, hs, hd]
    | spinTick => simp [update, hs, hd]
  have hres : ∃ e, runnerResult se we = Msg.doneM e := by
    cases se <;> exact ⟨_, rfl⟩
  refine ⟨hres, hall _, ?_, hall⟩
  obtain ⟨e, he⟩ := hres
  rw [he]
  simp [update, hs]

theorem doneChannelNeverFilledWitness :
    (∃ e, runnerResult none none = Msg.doneM e) ∧
    (update fsOk mRun (runnerResult none none)).1.done = none ∧
    (update fsOk mRun (runnerResult none none)).1.stage = stepRunning ∧
    (∀ msg, (update fsOk mRun msg).1.done = none) :=
  doneChannelNeverFilled fsOk mRun none none rfl rfl

/-- C2: a Running-stage tick that finds the completion slot filled
appends exactly one final status line — `"Done."` for a nil error or
`context.Canceled`, otherwise `"Process error: "` plus the error text
(see `statusLine`) — empties the slot and moves to Done with no further
command; a tick that finds the slot empty just drains pending lines and
re-arms the tick timer, staying in Running. -/
theorem runningTickCompletion (fs : FS) (m : Model) (h : m.stage = stepRunning) :
    (∀ e, m.done = some e →
      update fs m Msg.tick =
        ({ drainM 200 m with
              stage := stepDone, done := none,
              logBuf := appendLogLine (drainM 200 m).logBuf (statusLine e),
              viewport := appendLogLine (drainM 200 m).logBuf (statusLine e) },
          CmdE.noneC)) ∧
    (m.done = none →
      update fs m Msg.tick = (drainM 200 m, CmdE.tickC) ∧
      (drainM 200 m).stage = stepRunning) := by
  constructor
  · intro e he
    simp only [update, h]
    rw [drainM_done, he]
    simp only [appendLogLineM_eq _ _ (statusLine_ne_empty e)]
  · intro he
    simp only [update, h]
    rw [drainM_done, he]
    exact ⟨rfl, by rw [drainM_stage, h]⟩

theorem runningTickCompletionWitness :
    update fsOk mRunDone Msg.tick =
      ({ drainM 200 mRunDone with
            stage := stepDone, done := none,
            logBuf := appendLogLine (drainM 200 mRunDone).logBuf (statusLine none),
            viewport := appendLogLine (drainM 200 mRunDone).logBuf (statusLine none) },
        CmdE.noneC) ∧
    (update fsOk mRun Msg.tick = (drainM 200 mRun, CmdE.tickC) ∧
      (drainM 200 mRun).stage = stepRunning) :=
  ⟨(runningTickCompletion fsOk mRunDone rfl).1 none rfl,
   (runningTickCompletion fsOk mRun rfl).2 rfl⟩

/-- C6: one `Update` step always lands in a stage of the enum, and a
stage change only ever follows the §4.3 table (`allowedTransition`);
every unmatched input leaves the stage unchanged. -/
theorem stageTransitionClosure (fs : FS) (m : Model) (msg : Msg) :
    (update fs m msg).1.stage = m.stage ∨
      allowedTransition m.stage ((update fs m msg).1.stage) = true := by
  obtain ⟨sp, em, ak, da, no, st, li, dn, lb, vp, ca⟩ := m
  cases st <;> cases msg <;>
    simp only [update] <;>
    (repeat' split) <;>
    simp_all [allowedTransition, drainM_stage, appendLogLineM_stage]

theorem appendLogLineSpecWitness :
    (∀ c ∈ ("x" : String).data, c ≠ '\n') ∧
    (appendLogLine "a" "" = "a" ∧
     (("x" : String) ≠ "" →
       appendLogLine "a" "x" = if ("a" : String) = "" then "x" else "a" ++ "\n" ++ "x") ∧
     (LogLinesOk "a" → LogLinesOk (appendLogLine "a" "x"))) :=
  ⟨by decide, appendLogLineSpec "a" "x" (by decide)⟩

end CW
